import Mathlib

/-!
Shallow embedding of the scparser repository (a depth-bounded Go call-graph
source extractor) and verification of its specification claims.

The Go code resolves functions to `*types.Signature` pointers; we model a
signature identity as a `Nat`.  A `*packages.Package` pointer is likewise
modelled as a `Nat` package identity.  The semantic-model data the walker
consumes (the `funcToFileAndPkg` map together with the AST/`TypesInfo`
lookups and the source slicer) is modelled by an environment `Env` mapping a
signature to the function's declaration data: its owning package, its sliced
source text, and the ordered list of resolved call-site signatures in its
body (`none` when the declaration has no body, `fn.Body == nil`).
-/

namespace scparser

/-- Declaration data for one function, as the walker consumes it:
owning package, sliced source text, and the resolved call-site signatures
inside its body in source order (`none` models `fn.Body == nil`; call
expressions that do not resolve to a function-typed symbol with a package
are skipped by `processUnderlyingFunctions` and hence absent from the list). -/
structure Func where
  pkg : Nat
  src : String
  body : Option (List Nat)
deriving DecidableEq

/-- The read-only semantic environment: the `funcToFileAndPkg` index (with the
AST lookup and slicing already composed, see `processFunction` in the source)
and the display name of each package (`pkg.Name`). -/
structure Env where
  index : Nat → Option Func
  pkgName : Nat → String

/-- The mutable state of the `parser` struct: `functions` (package to
accumulated source text; a Go map with `""` for absent keys), `pkgOrder`
(packages in first-visit order) and `seen` (processed signatures, newest
first; a `map[*types.Signature]bool` in Go). -/
structure PState where
  functions : Nat → String
  pkgOrder : List Nat
  seen : List Nat

/-- Model of `newParser`: fresh state (empty maps, empty order). -/
def newParser : PState :=
  { functions := fun _ => "", pkgOrder := [], seen := [] }

/-- Model of `processFunction` from the source, with `processUnderlyingFunctions`
inlined so the recursion is structural on `depth`.

Correspondence with the Go code:
* `if p.seen[funcSig] { return }` — the `contains` test;
* `f, ok := p.funcToFileAndPkg[funcSig]; if !ok { return }` — the index match;
* the `ast.Inspect` that finds the declaration, extracts its source and
  updates `functions`/`pkgOrder`/`seen` — the `st1` update (the index gives
  the declaration directly);
* `p.processUnderlyingFunctions(f.pkg, fn, depth-1)` with
  `processUnderlyingFunctions` returning when its argument `depth-1 <= 0`
  (that is, when `depth <= 1`) or when the body is absent — the match on
  `depth`; for `depth = d+2` the call sites are processed in source order,
  each with `processFunction(funcSig, depth-1)` where `depth-1 = d+1`.

The state update performed on a fresh indexed signature (the body of the
`ast.Inspect` callback in `processFunction`) is split out as `stStep`:
append the package to `pkgOrder` if its `functions` entry is new, append
`"\n" + funcSrc` to the package's entry, mark the signature seen. -/
def stStep (funcSig : Nat) (f : Func) (st : PState) : PState :=
  { functions := fun p => if p = f.pkg then st.functions p ++ "\n" ++ f.src else st.functions p
    pkgOrder := if st.pkgOrder.contains f.pkg then st.pkgOrder else st.pkgOrder ++ [f.pkg]
    seen := funcSig :: st.seen }

def processFunction (Γ : Env) (funcSig : Nat) (depth : Nat) (st : PState) : PState :=
  if st.seen.contains funcSig then st
  else
    match Γ.index funcSig with
    | none => st
    | some f =>
      let st1 : PState := stStep funcSig f st
      match depth with
      | 0 => st1
      | d + 1 =>
        match d, f.body with
        | 0, _ => st1
        | _ + 1, none => st1
        | _ + 1, some calls => calls.foldl (fun s c => processFunction Γ c d s) st1

/-- Model of `formatPkg` from the source. -/
def formatPkg (pkgName : String) (codeOnly : Bool) : String :=
  if codeOnly then "// " ++ pkgName else pkgName

/-- Model of `formatFunctions` from the source. -/
def formatFunctions (functions : String) (codeOnly : Bool) : String :=
  if codeOnly then functions else "```" ++ functions ++ "```"

/-- The loop body of `toString`: `k` is the running index, `total` the length
of `p.pkgOrder`.  `continue` for `k == 0 && excludeRoot` contributes the empty
string (it also skips the `"\n\n"` separator). -/
def toStringAux (Γ : Env) (st : PState) (excludeRoot codeOnly : Bool) (total : Nat) :
    Nat → List Nat → String
  | _, [] => ""
  | k, pkg :: rest =>
    (if k = 0 ∧ excludeRoot = true then ""
     else
       (if 1 < k ∨ (k = 1 ∧ excludeRoot = false) then
          formatPkg (Γ.pkgName pkg) codeOnly ++ "\n"
        else "")
       ++ formatFunctions (st.functions pkg) codeOnly
       ++ (if k < total - 1 then "\n\n" else ""))
    ++ toStringAux Γ st excludeRoot codeOnly total (k + 1) rest

/-- Model of `toString` from the source: renders `pkgOrder`/`functions` into the final
document. -/
def toString (Γ : Env) (p : PState) (excludeRoot codeOnly : Bool) : String :=
  toStringAux Γ p excludeRoot codeOnly p.pkgOrder.length 0 p.pkgOrder

/-- Model of `Parse` from the source, starting from an already-resolved entry
signature (the `initialize` phase that produces it is modelled separately):
depth 5, or 6 if the root is excluded, then `toString`. -/
def Parse (Γ : Env) (funcSig : Nat) (excludeRoot codeOnly : Bool) : String :=
  let p := newParser
  let p := if excludeRoot then processFunction Γ funcSig 6 p
           else processFunction Γ funcSig 5 p
  scparser.toString Γ p excludeRoot codeOnly

/-- The set (as a list) of functions whose source text is part of the final
output: the processed signatures whose owning package is actually emitted by
`toString` (all of `pkgOrder`, minus the first slot when `excludeRoot`). -/
def includedFunctions (Γ : Env) (funcSig : Nat) (budget : Nat) (excludeRoot : Bool) : List Nat :=
  let p := processFunction Γ funcSig budget newParser
  let emitted := if excludeRoot then p.pkgOrder.drop 1 else p.pkgOrder
  p.seen.filter (fun s =>
    match Γ.index s with
    | some f => emitted.contains f.pkg
    | none => false)

/-- Overwrite the accumulated text of one package (used to express that the
output does not depend on a package's accumulated text). -/
def setPkgText (st : PState) (p : Nat) (x : String) : PState :=
  { st with functions := fun q => if q = p then x else st.functions q }

/-- The accumulated text of package `p` determined by the processing history
`seen` (oldest first after the `reverse`): each processed function of the
package contributes `"\n" ++ src` in processing order.  `processFunction`
maintains `functions p = pkgText Γ seen p` (see `stInv_processFunction`). -/
def pkgText (Γ : Env) (seen : List Nat) (p : Nat) : String :=
  String.join (seen.reverse.filterMap (fun s =>
    match Γ.index s with
    | some f => if f.pkg = p then some ("\n" ++ f.src) else none
    | none => none))

/-- Splitting a character list at every character satisfying `p`, keeping
empty pieces: the semantics of Go's `strings.Split` for a one-character
separator (and, with a whitespace predicate and empties filtered out, of
`strings.Fields`).  The result always has one more piece than there are
separator occurrences. -/
def splitChars (p : Char → Bool) : List Char → List (List Char)
  | [] => [[]]
  | c :: cs =>
    match splitChars p cs with
    | [] => [[]]
    | r :: rs => if p c then [] :: r :: rs else (c :: r) :: rs

/-- Model of `strings.Split(s, "\n")`: the lines of `s`. -/
def splitLines (s : String) : List String :=
  (splitChars (fun c => c == '\n') s.data).map String.mk

/-- Model of `strings.Fields(line)`: maximal runs of non-whitespace characters. -/
def fields (line : String) : List String :=
  ((splitChars Char.isWhitespace line.data).map String.mk).filter (fun s => s ≠ "")

/-- Input of `extractSourceCode`: the declaration's position data, with line
numbers 1-based as in `token.Position.Line`.  `doc` is `fn.Doc`: the list of
comments of the documentation group, each with its start and end line
(`fset.Position(comment.Pos()).Line`, `fset.Position(comment.End()).Line`);
`none` models `fn.Doc == nil`. -/
structure FnDecl where
  doc : Option (List (Nat × Nat))
  startLine : Nat
  endLine : Nat
deriving DecidableEq

/-- One emission loop of `extractSourceCode`:
`for i := a; i <= b; i++ { sb.WriteString(lines[i]); sb.WriteString("\n") }`
(0-based `a`, `b`; Go would panic on an out-of-range index, the theorems keep
the indices in bounds). -/
def emitLines (lines : List String) (a b : Nat) : String :=
  String.join ((List.range' a (b + 1 - a)).map (fun i => lines.getD i "" ++ "\n"))

/-- Model of `extractSourceCode` from the source: the file content is split on `"\n"`;
each doc comment's full line range is emitted in order, then the lines from
the declaration's start line to its end line. -/
def extractSourceCode (fileContent : String) (fn : FnDecl) : String :=
  let lines := splitLines fileContent
  let start := fn.startLine - 1
  let docPart :=
    match fn.doc with
    | none => ""
    | some comments =>
      String.join (comments.map (fun c => emitLines lines (c.1 - 1) (c.2 - 1)))
  docPart ++ emitLines lines start (fn.endLine - 1)

/-- Modelled from the spec: "return the exact substring spanning from the
start of its documentation comment block (if present) through the end of the
function body, inclusive, with original line breaks and indentation preserved
verbatim" — all lines from the doc block's first line through the body's end
line (1-based bounds), each with its line break. -/
def sliceSpec (fileContent : String) (docStartLine endLine : Nat) : String :=
  emitLines (splitLines fileContent) (docStartLine - 1) (endLine - 1)

/-- Predicate `tiles a cs b = true` holds when the comment line ranges `cs` (1-based,
inclusive) exactly tile the interval `[a, b]` in order with no gaps and no
overlaps. -/
def tiles : Nat → List (Nat × Nat) → Nat → Bool
  | a, [], b => a == b + 1
  | a, (s, e) :: rest, b => s == a && decide (a ≤ e) && tiles (e + 1) rest b

/-- Call-distance bound: `reachLe Γ d a b` holds when `b` is reachable from
`a` in at most `d` call-graph hops, where `a` has an edge to each resolved
call-site signature in its body (edges exist only out of indexed functions,
matching the walker). -/
def reachLe (Γ : Env) : Nat → Nat → Nat → Bool
  | 0, a, b => b == a
  | d + 1, a, b =>
    b == a ||
      (match Γ.index a with
       | none => false
       | some f =>
         match f.body with
         | none => false
         | some calls => calls.any (fun c => reachLe Γ d c b))

/-- Line loop of `parseGoModFile` from the source: split the go.mod content into lines,
take each line's whitespace-separated fields; when the first field is
`module` or `require` the second field is taken instead (Go would panic with
an index-out-of-range if it is absent — modelled as `none`); the resulting
word is kept unless it is one of `""`, `")"`, `"("`, `"require"`, `"go"`. -/
def parseGoModLines : List String → List String → Option (List String)
  | [], acc => some acc
  | line :: rest, acc =>
    match fields line with
    | [] => parseGoModLines rest acc
    | f0 :: fs =>
      let pkgOpt : Option String :=
        if f0 = "module" ∨ f0 = "require" then fs.head? else some f0
      match pkgOpt with
      | none => none
      | some pkg =>
        if pkg ≠ "" ∧ pkg ≠ ")" ∧ pkg ≠ "(" ∧ pkg ≠ "require" ∧ pkg ≠ "go" then
          parseGoModLines rest (acc ++ [pkg])
        else
          parseGoModLines rest acc

/-- Model of `parseGoModFile` from the source (the file content is passed in instead
of read from disk). -/
def parseGoModFile (content : String) : Option (List String) :=
  parseGoModLines (splitLines content) []

/-- Model of `isGoModPkg` from the source: the package path equals one of the go.mod
paths or extends one of them with a `/` separator
(`strings.HasPrefix(pkgPath, path+"/")`, modelled over the character lists). -/
def isGoModPkg (goModPaths : List String) (pkgPath : String) : Bool :=
  goModPaths.any (fun path => pkgPath == path || (path ++ "/").data.isPrefixOf pkgPath.data)

/-- One function declaration as seen by the indexing scan: its declared name
(`fn.Name.Name`), its resolved signature (`none` models a nil object or a
non-signature type, which the scan skips), and whether the declaration has a
receiver (a method).  The scan never inspects `recv`: methods participate
exactly like plain functions. -/
structure Decl where
  name : String
  sig : Option Nat
  recv : Bool
deriving DecidableEq

/-- One loaded package: its import path and its files' declarations in scan
order. -/
structure LoadedPkg where
  pkgPath : String
  files : List (List Decl)
deriving DecidableEq

/-- The fatal error raised by the indexing scan:
`panic(fmt.Sprintf("Function %s not found in package path", funcName))`. -/
inductive InitError where
  | entryPointNotFound (funcName : String)
deriving DecidableEq

/-- The declaration scan inside one file (the `ast.Inspect` body in the
source's `initialize`): each declaration with a resolved signature is
prepended to the index (a later insert shadows an earlier one, like a Go
map overwrite), and when the package path is the first go.mod path and the
declared name is the requested one, the entry signature is (re)assigned. -/
def scanDecls (rootPath funcName pkgPath : String) (ds : List Decl)
    (acc : Option Nat × List (Nat × String)) : Option Nat × List (Nat × String) :=
  ds.foldl
    (fun a d =>
      match d.sig with
      | none => a
      | some s =>
        (if pkgPath = rootPath ∧ d.name = funcName then some s else a.1,
         (s, pkgPath) :: a.2))
    acc

/-- The package loop of the source's `initialize`: packages not accepted by
`isGoModPkg` are skipped; after scanning a package whose path is the first
go.mod path, a still-unassigned entry signature is the fatal
`EntryPointNotFound` error. -/
def scanPackages (goModPaths : List String) (funcName : String) :
    List LoadedPkg → Option Nat × List (Nat × String) →
    Except InitError (Option Nat × List (Nat × String))
  | [], acc => .ok acc
  | pkg :: rest, acc =>
    if isGoModPkg goModPaths pkg.pkgPath then
      let acc' := pkg.files.foldl
        (fun a file => scanDecls (goModPaths.headD "") funcName pkg.pkgPath file a) acc
      if pkg.pkgPath = goModPaths.headD "" ∧ acc'.1 = none then
        .error (.entryPointNotFound funcName)
      else
        scanPackages goModPaths funcName rest acc'
    else
      scanPackages goModPaths funcName rest acc

/-- The source's `initialize`, from already-loaded packages: returns the
entry signature (still `none` when no package has the root path) and the
signature index. -/
def initializeScan (goModPaths : List String) (pkgs : List LoadedPkg) (funcName : String) :
    Except InitError (Option Nat × List (Nat × String)) :=
  scanPackages goModPaths funcName pkgs (none, [])

/-- The declarations that (re)assign the entry signature during the scan, in
scan order: declarations of scanned packages whose path is the first go.mod
path, whose name is the requested one and whose signature resolved.  The
returned entry signature is the last of these (`initializeScan_entry`).
Note no condition on `Decl.recv`: methods are matched too. -/
def entryMatches (goModPaths : List String) (pkgs : List LoadedPkg) (funcName : String) :
    List Nat :=
  pkgs.flatMap (fun pkg =>
    if isGoModPkg goModPaths pkg.pkgPath && (pkg.pkgPath == goModPaths.headD "") then
      pkg.files.flatMap (fun file =>
        file.filterMap (fun d => if d.name = funcName then d.sig else none))
    else [])

/-- The whole pipeline of `Parse` from the source including the indexing
scan: a fatal scan error aborts the run with no output.  (A `none` entry
signature is a nil `*types.Signature` in Go; it is absent from
`funcToFileAndPkg`, so `processFunction` returns at once and `toString`
renders the fresh state.) -/
def ParseE (goModPaths : List String) (pkgs : List LoadedPkg) (Γ : Env)
    (funcName : String) (excludeRoot codeOnly : Bool) : Except InitError String :=
  match initializeScan goModPaths pkgs funcName with
  | .error e => .error e
  | .ok (some s, _) => .ok (Parse Γ s excludeRoot codeOnly)
  | .ok (none, _) => .ok (scparser.toString Γ newParser excludeRoot codeOnly)

/-- The walker's state invariant, established from the fresh `newParser`
state: processed signatures are pairwise distinct and indexed; the
accumulated per-package text is exactly the processing history rendered by
`pkgText`; `pkgOrder` has no duplicates; and every processed function's
package has been registered in `pkgOrder`. -/
def StInv (Γ : Env) (st : PState) : Prop :=
  st.seen.Nodup ∧
  (∀ s ∈ st.seen, (Γ.index s).isSome = true) ∧
  (∀ p, st.functions p = pkgText Γ st.seen p) ∧
  st.pkgOrder.Nodup ∧
  (∀ s f, s ∈ st.seen → Γ.index s = some f → f.pkg ∈ st.pkgOrder)

/-- How one walker call extends the state: `seen` grows by prepending,
`pkgOrder` grows by appending, and the invariant is preserved. -/
def Ext (Γ : Env) (st st' : PState) : Prop :=
  (∃ l, st'.seen = l ++ st.seen) ∧
  (∃ l, st'.pkgOrder = st.pkgOrder ++ l) ∧
  (StInv Γ st → StInv Γ st')

/-- Test module: an infinite chain `0 → 1 → 2 → ⋯` of functions, all in
package `0`, function `i` having source text `Nat.repr i`. -/
def chainB : Env :=
  { index := fun i => some ⟨0, Nat.repr i, some [i + 1]⟩, pkgName := fun _ => "p" }

/-- Test module: a chain `0 → 1 → ⋯ → 5`, function `i` living in its own
package `i`. -/
def envChainPkgs : Env :=
  { index := fun s => if s ≤ 5 then some ⟨s, Nat.repr s, some [s + 1]⟩ else none
    pkgName := fun p => Nat.repr p }

/-- Test module: a single entry function `0` with source `"E"` and no
resolvable calls. -/
def envSingle : Env :=
  { index := fun s => if s = 0 then some ⟨0, "E", some []⟩ else none
    pkgName := fun _ => "main" }

/-- Test module: mutual recursion, `0` calls `1` and `1` calls `0`, both in
package `0`. -/
def envMutual : Env :=
  { index := fun s =>
      if s = 0 then some ⟨0, "A", some [1]⟩
      else if s = 1 then some ⟨0, "B", some [0]⟩
      else none
    pkgName := fun _ => "main" }

/-- Test state with three visited packages, for the header-suppression
witness. -/
def stThreePkgs : PState :=
  { functions := fun p => "src" ++ Nat.repr p, pkgOrder := [10, 11, 12], seen := [] }

/-- Test packages: the root module `"m"` contains `Main`; the required
dependency `"d"` contains `Dep`. -/
def pkgsDep : List LoadedPkg :=
  [⟨"m", [[⟨"Main", some 0, false⟩]]⟩, ⟨"d", [[⟨"Dep", some 1, false⟩]]⟩]

/-- A go.mod with a module line and one require line. -/
def goModDep : String := "module m\nrequire d v1.0.0"

/-- Test packages: the root module `"m"` declares a plain function `F` and,
later in the same file, a method `F` (`recv = true`). -/
def pkgsTwoF : List LoadedPkg :=
  [⟨"m", [[⟨"F", some 1, false⟩, ⟨"F", some 2, true⟩]]⟩]

/-- Test packages: the root module `"m"` has only a function `Other`. -/
def pkgsNoMain : List LoadedPkg :=
  [⟨"m", [[⟨"Other", some 0, false⟩]]⟩]

/-- An unused semantic environment (for pipeline runs that fail before the
traversal). -/
def envEmpty : Env :=
  { index := fun _ => none, pkgName := fun _ => "" }

/-! ### Walker lemmas -/

theorem contains_eq_false_of_not_mem {l : List Nat} {a : Nat} (h : a ∉ l) :
    l.contains a = false := by
  cases hc : l.contains a with
  | false => rfl
  | true => exact absurd (List.elem_iff.mp hc) h

theorem contains_eq_true_of_mem {l : List Nat} {a : Nat} (h : a ∈ l) :
    l.contains a = true := List.elem_iff.mpr h

theorem processFunction_of_mem {Γ : Env} {funcSig : Nat} {st : PState}
    (h : funcSig ∈ st.seen) (depth : Nat) :
    processFunction Γ funcSig depth st = st := by
  conv_lhs => rw [processFunction.eq_def]
  rw [contains_eq_true_of_mem h]
  simp

theorem processFunction_of_notIndexed {Γ : Env} {funcSig : Nat} {st : PState}
    (h : funcSig ∉ st.seen) (h2 : Γ.index funcSig = none) (depth : Nat) :
    processFunction Γ funcSig depth st = st := by
  conv_lhs => rw [processFunction.eq_def]
  rw [contains_eq_false_of_not_mem h, h2]
  simp

theorem processFunction_base {Γ : Env} {funcSig : Nat} {st : PState} {f : Func}
    (h : funcSig ∉ st.seen) (h2 : Γ.index funcSig = some f) {depth : Nat}
    (hd : depth = 0 ∨ depth = 1) :
    processFunction Γ funcSig depth st = stStep funcSig f st := by
  rcases hd with hd | hd <;>
    · subst hd
      conv_lhs => rw [processFunction.eq_def]
      rw [contains_eq_false_of_not_mem h, h2]
      simp

theorem processFunction_noBody {Γ : Env} {funcSig : Nat} {st : PState} {f : Func}
    (h : funcSig ∉ st.seen) (h2 : Γ.index funcSig = some f) (h3 : f.body = none) (d : Nat) :
    processFunction Γ funcSig (d + 2) st = stStep funcSig f st := by
  conv_lhs => rw [processFunction.eq_def]
  rw [contains_eq_false_of_not_mem h, h2]
  simp [h3]

theorem processFunction_calls {Γ : Env} {funcSig : Nat} {st : PState} {f : Func}
    {calls : List Nat}
    (h : funcSig ∉ st.seen) (h2 : Γ.index funcSig = some f) (h3 : f.body = some calls)
    (d : Nat) :
    processFunction Γ funcSig (d + 2) st
      = calls.foldl (fun s c => processFunction Γ c (d + 1) s) (stStep funcSig f st) := by
  conv_lhs => rw [processFunction.eq_def]
  rw [contains_eq_false_of_not_mem h, h2]
  simp [h3]

theorem foldl_append_str (l : List String) :
    ∀ a : String, l.foldl (· ++ ·) a = a ++ String.join l := by
  induction l with
  | nil => intro a; simp [String.join]
  | cons s t ih =>
    intro a
    simp only [List.foldl_cons, String.join] at *
    rw [ih (a ++ s), ih ("" ++ s), String.empty_append, String.append_assoc]

theorem join_cons (s : String) (l : List String) :
    String.join (s :: l) = s ++ String.join l := by
  show List.foldl (· ++ ·) "" (s :: l) = s ++ String.join l
  rw [List.foldl_cons, foldl_append_str, String.empty_append]

theorem join_append (l1 l2 : List String) :
    String.join (l1 ++ l2) = String.join l1 ++ String.join l2 := by
  induction l1 with
  | nil => simp [String.join, String.empty_append]
  | cons s l ih =>
    rw [List.cons_append, join_cons, join_cons, ih, String.append_assoc]

theorem not_mem_of_contains_eq_false {l : List Nat} {a : Nat}
    (h : l.contains a = false) : a ∉ l := fun hm => by
  rw [contains_eq_true_of_mem hm] at h
  exact Bool.noConfusion h

theorem pkgText_cons_some {Γ : Env} {s : Nat} {f : Func} (seen : List Nat) (p : Nat)
    (hf : Γ.index s = some f) :
    pkgText Γ (s :: seen) p
      = pkgText Γ seen p ++ (if f.pkg = p then "\n" ++ f.src else "") := by
  unfold pkgText
  rw [List.reverse_cons, List.filterMap_append, join_append]
  congr 1
  by_cases hp : f.pkg = p
  · simp [hf, hp, String.join, String.empty_append]
  · simp [hf, hp, String.join]

theorem stStep_pkgOrder_of_mem {f : Func} {st : PState} (funcSig : Nat)
    (hc : f.pkg ∈ st.pkgOrder) :
    (stStep funcSig f st).pkgOrder = st.pkgOrder := by
  show (if st.pkgOrder.contains f.pkg then st.pkgOrder else st.pkgOrder ++ [f.pkg])
        = st.pkgOrder
  rw [contains_eq_true_of_mem hc]
  simp

theorem stStep_pkgOrder_of_not_mem {f : Func} {st : PState} (funcSig : Nat)
    (hc : f.pkg ∉ st.pkgOrder) :
    (stStep funcSig f st).pkgOrder = st.pkgOrder ++ [f.pkg] := by
  show (if st.pkgOrder.contains f.pkg then st.pkgOrder else st.pkgOrder ++ [f.pkg])
        = st.pkgOrder ++ [f.pkg]
  rw [contains_eq_false_of_not_mem hc]
  simp

theorem ext_refl (Γ : Env) (st : PState) : Ext Γ st st :=
  ⟨⟨[], rfl⟩, ⟨[], by simp⟩, id⟩

theorem ext_trans {Γ : Env} {a b c : PState} (h1 : Ext Γ a b) (h2 : Ext Γ b c) :
    Ext Γ a c := by
  obtain ⟨⟨l1, hs1⟩, ⟨m1, ho1⟩, hi1⟩ := h1
  obtain ⟨⟨l2, hs2⟩, ⟨m2, ho2⟩, hi2⟩ := h2
  exact ⟨⟨l2 ++ l1, by rw [hs2, hs1, List.append_assoc]⟩,
         ⟨m1 ++ m2, by rw [ho2, ho1, List.append_assoc]⟩,
         fun hv => hi2 (hi1 hv)⟩

theorem ext_stStep {Γ : Env} {funcSig : Nat} {st : PState} {f : Func}
    (h : funcSig ∉ st.seen) (hf : Γ.index funcSig = some f) :
    Ext Γ st (stStep funcSig f st) := by
  have hsub : ∀ q, q ∈ st.pkgOrder → q ∈ (stStep funcSig f st).pkgOrder := by
    intro q hq
    by_cases hc : f.pkg ∈ st.pkgOrder
    · rw [stStep_pkgOrder_of_mem funcSig hc]; exact hq
    · rw [stStep_pkgOrder_of_not_mem funcSig hc]; exact List.mem_append_left _ hq
  have hnew : f.pkg ∈ (stStep funcSig f st).pkgOrder := by
    by_cases hc : f.pkg ∈ st.pkgOrder
    · rw [stStep_pkgOrder_of_mem funcSig hc]; exact hc
    · rw [stStep_pkgOrder_of_not_mem funcSig hc]
      exact List.mem_append_right _ (List.mem_singleton.mpr rfl)
  refine ⟨⟨[funcSig], rfl⟩, ?_, ?_⟩
  · by_cases hc : f.pkg ∈ st.pkgOrder
    · exact ⟨[], by rw [stStep_pkgOrder_of_mem funcSig hc, List.append_nil]⟩
    · exact ⟨[f.pkg], stStep_pkgOrder_of_not_mem funcSig hc⟩
  · rintro ⟨hnd, hidx, htext, hond, hmem⟩
    refine ⟨List.nodup_cons.mpr ⟨h, hnd⟩, ?_, ?_, ?_, ?_⟩
    · intro s hs
      rcases List.mem_cons.mp hs with hs | hs
      · subst hs; rw [hf]; rfl
      · exact hidx s hs
    · intro p
      show (if p = f.pkg then st.functions p ++ "\n" ++ f.src else st.functions p)
            = pkgText Γ (funcSig :: st.seen) p
      rw [pkgText_cons_some st.seen p hf]
      by_cases hp : p = f.pkg
      · subst hp
        rw [if_pos rfl, if_pos rfl, htext, String.append_assoc]
      · rw [if_neg hp, if_neg (fun hh => hp hh.symm), htext, String.append_empty]
    · by_cases hc : f.pkg ∈ st.pkgOrder
      · rw [stStep_pkgOrder_of_mem funcSig hc]; exact hond
      · rw [stStep_pkgOrder_of_not_mem funcSig hc]
        rw [List.nodup_append]
        exact ⟨hond, List.nodup_singleton _, by simpa using hc⟩
    · intro s f' hs hf'
      rcases List.mem_cons.mp hs with hs | hs
      · subst hs
        rw [hf] at hf'
        cases hf'
        exact hnew
      · exact hsub _ (hmem s f' hs hf')

theorem ext_foldl (Γ : Env) (d : Nat)
    (hstep : ∀ c s, Ext Γ s (processFunction Γ c d s)) :
    ∀ (calls : List Nat) (st : PState),
      Ext Γ st (calls.foldl (fun s c => processFunction Γ c d s) st) := by
  intro calls
  induction calls with
  | nil => intro st; exact ext_refl Γ st
  | cons c cs ih =>
    intro st
    rw [List.foldl_cons]
    exact ext_trans (hstep c st) (ih _)

theorem ext_processFunction (Γ : Env) :
    ∀ (depth funcSig : Nat) (st : PState), Ext Γ st (processFunction Γ funcSig depth st) := by
  intro depth
  induction depth using Nat.strong_induction_on with
  | _ depth ih =>
    intro funcSig st
    by_cases hm : funcSig ∈ st.seen
    · rw [processFunction_of_mem hm]; exact ext_refl Γ st
    cases hf : Γ.index funcSig with
    | none => rw [processFunction_of_notIndexed hm hf]; exact ext_refl Γ st
    | some f =>
      rcases depth with _ | d
      · rw [processFunction_base hm hf (Or.inl rfl)]
        exact ext_stStep hm hf
      rcases d with _ | e
      · rw [processFunction_base hm hf (Or.inr rfl)]
        exact ext_stStep hm hf
      cases hb : f.body with
      | none =>
        rw [processFunction_noBody hm hf hb]
        exact ext_stStep hm hf
      | some calls =>
        rw [processFunction_calls hm hf hb]
        exact ext_trans (ext_stStep hm hf)
          (ext_foldl Γ (e + 1) (fun c s => ih (e + 1) (by omega) c s) calls _)

theorem stInv_newParser (Γ : Env) : StInv Γ newParser := by
  refine ⟨List.nodup_nil, ?_, ?_, List.nodup_nil, ?_⟩
  · intro s hs; exact absurd hs (List.not_mem_nil s)
  · intro p; rfl
  · intro s f hs _; exact absurd hs (List.not_mem_nil s)

/-- The state invariant holds after any traversal started from the fresh
state. -/
theorem stInv_processFunction (Γ : Env) (funcSig depth : Nat) :
    StInv Γ (processFunction Γ funcSig depth newParser) :=
  (ext_processFunction Γ depth funcSig newParser).2.2 (stInv_newParser Γ)

theorem reachLe_refl (Γ : Env) (d a : Nat) : reachLe Γ d a a = true := by
  cases d with
  | zero => simp [reachLe]
  | succ d => simp [reachLe]

theorem reachLe_succ_of_edge {Γ : Env} {a c b : Nat} {f : Func} {calls : List Nat}
    (hf : Γ.index a = some f) (hb : f.body = some calls) (hc : c ∈ calls) {d : Nat}
    (h : reachLe Γ d c b = true) : reachLe Γ (d + 1) a b = true := by
  unfold reachLe
  rw [hf]
  show (b == a ||
      match f.body with
      | none => false
      | some calls => calls.any fun c => reachLe Γ d c b) = true
  rw [hb]
  exact Bool.or_eq_true_iff.mpr (Or.inr (List.any_eq_true.mpr ⟨c, hc, h⟩))

theorem seen_reach_foldl (Γ : Env) (d : Nat)
    (hstep : ∀ c st s, s ∈ (processFunction Γ c d st).seen →
      s ∈ st.seen ∨ reachLe Γ (d - 1) c s = true) :
    ∀ (calls : List Nat) (st : PState) (s : Nat),
      s ∈ (calls.foldl (fun s c => processFunction Γ c d s) st).seen →
        s ∈ st.seen ∨ ∃ c ∈ calls, reachLe Γ (d - 1) c s = true := by
  intro calls
  induction calls with
  | nil => intro st s hs; exact Or.inl hs
  | cons c cs ih =>
    intro st s hs
    rw [List.foldl_cons] at hs
    rcases ih _ s hs with hs' | ⟨c', hc', hr⟩
    · rcases hstep c st s hs' with hs'' | hr
      · exact Or.inl hs''
      · exact Or.inr ⟨c, List.mem_cons_self c cs, hr⟩
    · exact Or.inr ⟨c', List.mem_cons_of_mem c hc', hr⟩

/-- Soundness of the processing history: any signature processed by a call
with budget `depth` was either already processed or is within `depth - 1`
call-graph hops of the visited signature. -/
theorem seen_reach (Γ : Env) :
    ∀ (depth funcSig : Nat) (st : PState) (s : Nat),
      s ∈ (processFunction Γ funcSig depth st).seen →
        s ∈ st.seen ∨ reachLe Γ (depth - 1) funcSig s = true := by
  intro depth
  induction depth using Nat.strong_induction_on with
  | _ depth ih =>
    intro funcSig st s hs
    by_cases hm : funcSig ∈ st.seen
    · rw [processFunction_of_mem hm] at hs; exact Or.inl hs
    cases hf : Γ.index funcSig with
    | none =>
      rw [processFunction_of_notIndexed hm hf] at hs; exact Or.inl hs
    | some f =>
      have hself : reachLe Γ (depth - 1) funcSig funcSig = true := reachLe_refl Γ _ _
      rcases depth with _ | d
      · rw [processFunction_base hm hf (Or.inl rfl)] at hs
        rcases List.mem_cons.mp hs with hs | hs
        · subst hs; exact Or.inr hself
        · exact Or.inl hs
      rcases d with _ | e
      · rw [processFunction_base hm hf (Or.inr rfl)] at hs
        rcases List.mem_cons.mp hs with hs | hs
        · subst hs; exact Or.inr hself
        · exact Or.inl hs
      cases hb : f.body with
      | none =>
        rw [processFunction_noBody hm hf hb] at hs
        rcases List.mem_cons.mp hs with hs | hs
        · subst hs; exact Or.inr hself
        · exact Or.inl hs
      | some calls =>
        rw [processFunction_calls hm hf hb] at hs
        rcases seen_reach_foldl Γ (e + 1) (fun c st' s' => ih (e + 1) (by omega) c st' s')
            calls _ s hs with hs' | ⟨c, hc, hr⟩
        · rcases List.mem_cons.mp hs' with hs'' | hs''
          · subst hs''; exact Or.inr hself
          · exact Or.inl hs''
        · refine Or.inr ?_
          show reachLe Γ (e + 1) funcSig s = true
          exact reachLe_succ_of_edge hf hb hc (by simpa using hr)

/-- A visited signature that is present in the index ends up processed,
whatever the depth budget. -/
theorem mem_seen_processFunction (Γ : Env) (funcSig depth : Nat) (st : PState)
    (hidx : (Γ.index funcSig).isSome = true) :
    funcSig ∈ (processFunction Γ funcSig depth st).seen := by
  by_cases hm : funcSig ∈ st.seen
  · rw [processFunction_of_mem hm]; exact hm
  obtain ⟨f, hf⟩ := Option.isSome_iff_exists.mp hidx
  have hstep : funcSig ∈ (stStep funcSig f st).seen := List.mem_cons_self _ _
  rcases depth with _ | d
  · rw [processFunction_base hm hf (Or.inl rfl)]; exact hstep
  rcases d with _ | e
  · rw [processFunction_base hm hf (Or.inr rfl)]; exact hstep
  cases hb : f.body with
  | none => rw [processFunction_noBody hm hf hb]; exact hstep
  | some calls =>
    rw [processFunction_calls hm hf hb]
    obtain ⟨⟨l, hl⟩, _, _⟩ :=
      ext_foldl Γ (e + 1) (fun c s => ext_processFunction Γ (e + 1) c s) calls
        (stStep funcSig f st)
    rw [hl]
    exact List.mem_append_right l hstep

/-- Every indexed call site of a processed call list ends up processed. -/
theorem mem_seen_foldl (Γ : Env) (d : Nat) {c : Nat}
    (hidx : (Γ.index c).isSome = true) :
    ∀ (calls : List Nat) (st : PState), c ∈ calls →
      c ∈ (calls.foldl (fun s x => processFunction Γ x d s) st).seen := by
  intro calls
  induction calls with
  | nil => intro st hc; exact absurd hc (List.not_mem_nil c)
  | cons c' cs ih =>
    intro st hc
    rw [List.foldl_cons]
    rcases List.mem_cons.mp hc with hc | hc
    · subst hc
      obtain ⟨⟨l, hl⟩, _, _⟩ :=
        ext_foldl Γ d (fun x s => ext_processFunction Γ d x s) cs
          (processFunction Γ c d st)
      rw [hl]
      exact List.mem_append_right l (mem_seen_processFunction Γ c d st hidx)
    · exact ih _ hc

/-- The entry point is processed first: its signature is the oldest element
of `seen` and its package is the head of `pkgOrder`. -/
theorem run_head (Γ : Env) {e : Nat} {f : Func} (hf : Γ.index e = some f) (depth : Nat) :
    (∃ l, (processFunction Γ e depth newParser).seen = l ++ [e]) ∧
    (∃ l, (processFunction Γ e depth newParser).pkgOrder = f.pkg :: l) := by
  have hm : e ∉ newParser.seen := List.not_mem_nil e
  have hseen1 : (stStep e f newParser).seen = [e] := rfl
  have hord1 : (stStep e f newParser).pkgOrder = [f.pkg] := rfl
  rcases depth with _ | d
  · rw [processFunction_base hm hf (Or.inl rfl)]
    exact ⟨⟨[], hseen1⟩, ⟨[], hord1⟩⟩
  rcases d with _ | e'
  · rw [processFunction_base hm hf (Or.inr rfl)]
    exact ⟨⟨[], hseen1⟩, ⟨[], hord1⟩⟩
  cases hb : f.body with
  | none =>
    rw [processFunction_noBody hm hf hb]
    exact ⟨⟨[], hseen1⟩, ⟨[], hord1⟩⟩
  | some calls =>
    rw [processFunction_calls hm hf hb]
    obtain ⟨⟨l, hl⟩, ⟨m, hm'⟩, _⟩ :=
      ext_foldl Γ (e' + 1) (fun c s => ext_processFunction Γ (e' + 1) c s) calls
        (stStep e f newParser)
    refine ⟨⟨l, by rw [hl, hseen1]⟩, ⟨m, by rw [hm', hord1]; rfl⟩⟩

theorem toStringAux_congr (Γ : Env) (st st' : PState) (er co : Bool) (total : Nat) :
    ∀ (k : Nat) (pkgs : List Nat), (∀ p ∈ pkgs, st'.functions p = st.functions p) →
      toStringAux Γ st' er co total k pkgs = toStringAux Γ st er co total k pkgs := by
  intro k pkgs
  induction pkgs generalizing k with
  | nil => intro _; rfl
  | cons p rest ih =>
    intro hfn
    rw [toStringAux, toStringAux,
        hfn p (List.mem_cons_self p rest),
        ih (k + 1) (fun q hq => hfn q (List.mem_cons_of_mem p hq))]

/-! ### Claims -/

/-- C9: for a fixed module snapshot (environment), entry-point signature,
depth and flags, any two runs of `Parse` produce byte-identical output
strings.  In the embedding `Parse` is a pure function of these inputs, so
two runs on equal inputs are equal. -/
theorem C9_parse_deterministic (Γ : Env) (funcSig : Nat) (excludeRoot codeOnly : Bool)
    (out1 out2 : String)
    (h1 : out1 = Parse Γ funcSig excludeRoot codeOnly)
    (h2 : out2 = Parse Γ funcSig excludeRoot codeOnly) : out1 = out2 :=
  h1.trans h2.symm

theorem C9_parse_deterministic_witness :
    Parse envSingle 0 false false = Parse envSingle 0 false false :=
  C9_parse_deterministic envSingle 0 false false _ _ rfl rfl

/-- C5: for a traversal that visited packages `[p0, p1, p2]` in that order,
with `excludeRoot = false` the rendered document is `p0`'s block with no
package header followed by headed blocks for `p1` and `p2`; with
`excludeRoot = true` (`p0`'s slot dropped entirely) it is `p1`'s block with
no header followed by a headed block for `p2`. -/
theorem C5_header_suppression (Γ : Env) (st : PState) (p0 p1 p2 : Nat) (co : Bool)
    (h : st.pkgOrder = [p0, p1, p2]) :
    scparser.toString Γ st false co
        = formatFunctions (st.functions p0) co ++ "\n\n"
          ++ formatPkg (Γ.pkgName p1) co ++ "\n" ++ formatFunctions (st.functions p1) co
          ++ "\n\n"
          ++ formatPkg (Γ.pkgName p2) co ++ "\n" ++ formatFunctions (st.functions p2) co
      ∧
    scparser.toString Γ st true co
        = formatFunctions (st.functions p1) co ++ "\n\n"
          ++ formatPkg (Γ.pkgName p2) co ++ "\n" ++ formatFunctions (st.functions p2) co := by
  constructor <;>
    simp [scparser.toString, h, toStringAux, String.append_assoc, String.empty_append,
      String.append_empty]

theorem C5_header_suppression_witness :
    scparser.toString envChainPkgs stThreePkgs false false
        = formatFunctions (stThreePkgs.functions 10) false ++ "\n\n"
          ++ formatPkg (envChainPkgs.pkgName 11) false ++ "\n"
          ++ formatFunctions (stThreePkgs.functions 11) false ++ "\n\n"
          ++ formatPkg (envChainPkgs.pkgName 12) false ++ "\n"
          ++ formatFunctions (stThreePkgs.functions 12) false
      ∧
    scparser.toString envChainPkgs stThreePkgs true false
        = formatFunctions (stThreePkgs.functions 11) false ++ "\n\n"
          ++ formatPkg (envChainPkgs.pkgName 12) false ++ "\n"
          ++ formatFunctions (stThreePkgs.functions 12) false :=
  C5_header_suppression envChainPkgs stThreePkgs 10 11 12 false rfl

theorem C3_counterexample :
    (processFunction envSingle 0 6 newParser).functions 0 = "\nE" := by decide

/-- C3 (amended): when `excludeRoot` is true the entry point's source *is*
appended to the Accumulator exactly like any other processed function — the
first package's accumulated text starts with the entry point's source — but
that package's entire accumulated text is omitted from the final output
(`toString` skips position 0 of `pkgOrder` and no later position holds the
entry package again, so the output does not depend on that text at all). -/
theorem C3_excludeRoot_amended (Γ : Env) (e : Nat) (f : Func) (N : Nat) (co : Bool)
    (x : String) (hf : Γ.index e = some f) :
    (∃ rest, (processFunction Γ e N newParser).functions f.pkg = "\n" ++ f.src ++ rest) ∧
    scparser.toString Γ (setPkgText (processFunction Γ e N newParser) f.pkg x) true co
      = scparser.toString Γ (processFunction Γ e N newParser) true co := by
  obtain ⟨⟨l, hseen⟩, ⟨m, hord⟩⟩ := run_head Γ hf N
  obtain ⟨hnd, hidx, htext, hond, hmem⟩ := stInv_processFunction Γ e N
  constructor
  · rw [htext f.pkg, hseen]
    have h1 : (l ++ [e]).reverse = e :: l.reverse := by simp
    unfold pkgText
    rw [h1, List.filterMap_cons]
    simp only [hf, if_pos rfl]
    exact ⟨_, join_cons _ _⟩
  · show toStringAux Γ (setPkgText (processFunction Γ e N newParser) f.pkg x) true co
        (setPkgText (processFunction Γ e N newParser) f.pkg x).pkgOrder.length 0
        (setPkgText (processFunction Γ e N newParser) f.pkg x).pkgOrder
      = toStringAux Γ (processFunction Γ e N newParser) true co
        (processFunction Γ e N newParser).pkgOrder.length 0
        (processFunction Γ e N newParser).pkgOrder
    have hordset : (setPkgText (processFunction Γ e N newParser) f.pkg x).pkgOrder
        = (processFunction Γ e N newParser).pkgOrder := rfl
    rw [hordset, hord]
    have hne : f.pkg ∉ m := (List.nodup_cons.mp (hord ▸ hond)).1
    rw [toStringAux, toStringAux]
    have hcongr := toStringAux_congr Γ (processFunction Γ e N newParser)
      (setPkgText (processFunction Γ e N newParser) f.pkg x) true co (f.pkg :: m).length 1 m
      (fun p hp => by
        show (if p = f.pkg then x else (processFunction Γ e N newParser).functions p)
            = (processFunction Γ e N newParser).functions p
        rw [if_neg (show ¬p = f.pkg from fun hh => hne (by rw [← hh]; exact hp))])
    simp only [List.length_cons] at hcongr
    simp [hcongr]

theorem C3_excludeRoot_amended_witness :
    (∃ rest, (processFunction envSingle 0 6 newParser).functions 0 = "\n" ++ "E" ++ rest) ∧
    scparser.toString envSingle
        (setPkgText (processFunction envSingle 0 6 newParser) 0 "XX") true false
      = scparser.toString envSingle (processFunction envSingle 0 6 newParser) true false :=
  C3_excludeRoot_amended envSingle 0 ⟨0, "E", some []⟩ 6 false "XX" rfl

theorem C2_counterexample :
    ¬ (includedFunctions envChainPkgs 0 6 true).toFinset
        = (includedFunctions envChainPkgs 0 5 false).toFinset \ ({0} : Finset Nat) := by
  decide

/-- C2 (amended): for a fixed module and entry point, the set of functions
whose source is included in the output with `excludeRoot = true` and budget 6
equals the set included with `excludeRoot = false` and the *same* budget 6,
minus every function of the entry point's package (the entry point among
them).  The original claim fails on both counts: the budget-5 run explores
one hop less than the budget-6 run, and `excludeRoot` drops the whole first
package, not just the entry point. -/
theorem C2_excludeRoot_compensation_amended (Γ : Env) (e : Nat) (f : Func)
    (hf : Γ.index e = some f) :
    includedFunctions Γ e 6 true
      = (includedFunctions Γ e 6 false).filter
          (fun s => match Γ.index s with
                    | some g => g.pkg != f.pkg
                    | none => false) := by
  obtain ⟨⟨l, hseen⟩, ⟨m, hord⟩⟩ := run_head Γ hf 6
  obtain ⟨hnd, hidx, htext, hond, hmem⟩ := stInv_processFunction Γ e 6
  have hne : f.pkg ∉ m := (List.nodup_cons.mp (hord ▸ hond)).1
  show (processFunction Γ e 6 newParser).seen.filter
        (fun s => match Γ.index s with
                  | some g => ((processFunction Γ e 6 newParser).pkgOrder.drop 1).contains g.pkg
                  | none => false)
      = ((processFunction Γ e 6 newParser).seen.filter
          (fun s => match Γ.index s with
                    | some g => (processFunction Γ e 6 newParser).pkgOrder.contains g.pkg
                    | none => false)).filter
          (fun s => match Γ.index s with
                    | some g => g.pkg != f.pkg
                    | none => false)
  rw [List.filter_filter]
  apply List.filter_congr
  intro s hs
  obtain ⟨g, hg⟩ := Option.isSome_iff_exists.mp (hidx s hs)
  have hpkg : g.pkg ∈ (processFunction Γ e 6 newParser).pkgOrder := hmem s g hs hg
  rw [hord] at hpkg
  simp only [hg, hord]
  by_cases hpq : g.pkg = f.pkg
  · rw [hpq]
    simp [hne]
  · have hmm : g.pkg ∈ m := by
      rcases List.mem_cons.mp hpkg with hh | hh
      · exact absurd hh hpq
      · exact hh
    simp [hmm, hpq]

theorem C2_excludeRoot_compensation_amended_witness :
    includedFunctions envChainPkgs 0 6 true
      = (includedFunctions envChainPkgs 0 6 false).filter
          (fun s => match envChainPkgs.index s with
                    | some g => g.pkg != (0 : Nat)
                    | none => false) :=
  C2_excludeRoot_compensation_amended envChainPkgs 0 ⟨0, Nat.repr 0, some [1]⟩ rfl

/-- C6: on any module whose call graph contains mutual recursion (`A` calls
`B` and `B` calls `A`; `A = B` gives direct self-recursion), the traversal
(a total function in this embedding, so it terminates by construction)
processes each of `A` and `B` exactly once, and the accumulated text of
their packages is the rendering `pkgText` of the processing history — in
which a signature processed once contributes its source exactly once. -/
theorem C6_cycle_dedup (Γ : Env) (A B : Nat) (fA fB : Func)
    (callsA callsB : List Nat) (N : Nat)
    (hA : Γ.index A = some fA) (hbA : fA.body = some callsA) (hAB : B ∈ callsA)
    (hB : Γ.index B = some fB) (hbB : fB.body = some callsB) (hBA : A ∈ callsB)
    (hN : 2 ≤ N) :
    ((processFunction Γ A N newParser).seen.count A = 1 ∧
     (processFunction Γ A N newParser).seen.count B = 1) ∧
    ((processFunction Γ A N newParser).functions fA.pkg
        = pkgText Γ (processFunction Γ A N newParser).seen fA.pkg ∧
     (processFunction Γ A N newParser).functions fB.pkg
        = pkgText Γ (processFunction Γ A N newParser).seen fB.pkg) := by
  obtain ⟨e, rfl⟩ : ∃ e, N = e + 2 := ⟨N - 2, by omega⟩
  obtain ⟨hnd, hidx, htext, hond, hmem⟩ := stInv_processFunction Γ A (e + 2)
  have hmA : A ∈ (processFunction Γ A (e + 2) newParser).seen :=
    mem_seen_processFunction Γ A (e + 2) newParser (by rw [hA]; rfl)
  have hmB : B ∈ (processFunction Γ A (e + 2) newParser).seen := by
    rw [processFunction_calls (List.not_mem_nil A) hA hbA]
    exact mem_seen_foldl Γ (e + 1) (by rw [hB]; rfl) callsA _ hAB
  exact ⟨⟨List.count_eq_one_of_mem hnd hmA, List.count_eq_one_of_mem hnd hmB⟩,
    htext fA.pkg, htext fB.pkg⟩

theorem C6_cycle_dedup_witness :
    (((processFunction envMutual 0 5 newParser).seen.count 0 = 1 ∧
      (processFunction envMutual 0 5 newParser).seen.count 1 = 1)) ∧
    ((processFunction envMutual 0 5 newParser).functions 0
        = pkgText envMutual (processFunction envMutual 0 5 newParser).seen 0 ∧
      (processFunction envMutual 0 5 newParser).functions 0
        = pkgText envMutual (processFunction envMutual 0 5 newParser).seen 0) :=
  C6_cycle_dedup envMutual 0 1 ⟨0, "A", some [1]⟩ ⟨0, "B", some [0]⟩ [1] [0] 5
    rfl rfl (by decide) rfl rfl (by decide) (by decide)

/-- On the infinite chain module, a traversal of `i` with budget `d ≥ 1`
from a state that has processed nothing `≥ i` processes exactly
`i, i+1, …, i+d-1` (newest first). -/
theorem chainB_seen :
    ∀ d : Nat, 1 ≤ d → ∀ (i : Nat) (st : PState), (∀ j, i ≤ j → j ∉ st.seen) →
      (processFunction chainB i d st).seen = (List.range' i d).reverse ++ st.seen := by
  intro d
  induction d using Nat.strong_induction_on with
  | _ d ih =>
    intro hd i st hfresh
    have hm : i ∉ st.seen := hfresh i (Nat.le_refl i)
    have hf : chainB.index i = some ⟨0, Nat.repr i, some [i + 1]⟩ := rfl
    rcases d with _ | d
    · omega
    rcases d with _ | e
    · rw [processFunction_base hm hf (Or.inr rfl)]
      rfl
    · rw [processFunction_calls hm hf rfl]
      have hstep : (stStep i ⟨0, Nat.repr i, some [i + 1]⟩ st).seen = i :: st.seen := rfl
      show (processFunction chainB (i + 1) (e + 1)
              (stStep i ⟨0, Nat.repr i, some [i + 1]⟩ st)).seen
          = (List.range' i (e + 2)).reverse ++ st.seen
      rw [ih (e + 1) (by omega) (by omega) (i + 1) _
            (fun j hj hmem => by
              rw [hstep] at hmem
              rcases List.mem_cons.mp hmem with hh | hh
              · omega
              · exact hfresh j (by omega) hh),
          hstep]
      rw [show List.range' i (e + 2) = i :: List.range' (i + 1) (e + 1) from rfl,
          List.reverse_cons, List.append_assoc]
      rfl

theorem C1_counterexample :
    reachLe chainB 1 0 1 = true ∧ reachLe chainB 0 0 1 = false ∧
      1 ∉ includedFunctions chainB 0 1 false := by decide

/-- C1 (amended): with depth budget `N`, every function appearing in the
output is within `N - 1` call-graph hops of the entry point (so nothing
reachable only at call-distance `> N - 1` — in particular at distance
exactly `N` — appears); and the bound is tight: on a chain
`0 → 1 → 2 → ⋯` the budget-`N` run includes exactly the functions at
call-distance `0, …, N-1`, the distance-`N-1` function appearing with its own
source while its callee at distance `N` is not expanded. -/
theorem C1_depth_bound_amended :
    (∀ (Γ : Env) (e N s : Nat), s ∈ includedFunctions Γ e N false →
        reachLe Γ (N - 1) e s = true) ∧
    (∀ N : Nat, 1 ≤ N → includedFunctions chainB 0 N false = (List.range N).reverse) := by
  constructor
  · intro Γ e N s hs
    have hseen : s ∈ (processFunction Γ e N newParser).seen := by
      have := List.mem_filter.mp hs
      exact this.1
    rcases seen_reach Γ N e newParser s hseen with hh | hh
    · exact absurd hh (List.not_mem_nil s)
    · exact hh
  · intro N hN
    have hf : chainB.index 0 = some ⟨0, Nat.repr 0, some [1]⟩ := rfl
    obtain ⟨_, ⟨l, hord⟩⟩ := run_head chainB hf N
    have hseen := chainB_seen N hN 0 newParser (fun j _ hj => absurd hj (List.not_mem_nil j))
    rw [show newParser.seen = [] from rfl, List.append_nil] at hseen
    show (processFunction chainB 0 N newParser).seen.filter _ = (List.range N).reverse
    rw [List.filter_eq_self.mpr, hseen, List.range_eq_range']
    intro s _
    show (match chainB.index s with
          | some g => (processFunction chainB 0 N newParser).pkgOrder.contains g.pkg
          | none => false) = true
    show (processFunction chainB 0 N newParser).pkgOrder.contains 0 = true
    rw [hord]
    exact contains_eq_true_of_mem (List.mem_cons_self 0 l)

theorem C1_depth_bound_amended_witness :
    reachLe chainB 2 0 2 = true ∧ includedFunctions chainB 0 3 false = [2, 1, 0] :=
  ⟨C1_depth_bound_amended.1 chainB 0 3 2 (by decide),
   by rw [C1_depth_bound_amended.2 3 (by decide)]; rfl⟩

theorem isGoModPkg_head {goModPaths : List String} (h : goModPaths ≠ []) :
    isGoModPkg goModPaths (goModPaths.headD "") = true := by
  cases goModPaths with
  | nil => exact absurd rfl h
  | cons p rest =>
    show isGoModPkg (p :: rest) p = true
    unfold isGoModPkg
    simp

theorem scanDecls_fst_none (rootPath funcName pkgPath : String) :
    ∀ (ds : List Decl) (acc : Option Nat × List (Nat × String)), acc.1 = none →
      (∀ d ∈ ds, ¬(d.name = funcName ∧ d.sig.isSome = true)) →
      (scanDecls rootPath funcName pkgPath ds acc).1 = none := by
  intro ds
  induction ds with
  | nil => intro acc h _; exact h
  | cons d rest ih =>
    intro acc hnone hno
    rw [scanDecls, List.foldl_cons]
    cases hsig : d.sig with
    | none =>
      exact ih acc hnone (fun d' hd' => hno d' (List.mem_cons_of_mem d hd'))
    | some s =>
      have hname : ¬d.name = funcName := fun hn =>
        hno d (List.mem_cons_self d rest) ⟨hn, by rw [hsig]; rfl⟩
      have h1 : (if pkgPath = rootPath ∧ d.name = funcName then some s else acc.1)
          = none := by
        rw [if_neg (fun hh : pkgPath = rootPath ∧ d.name = funcName => hname hh.2), hnone]
      exact ih _ h1 (fun d' hd' => hno d' (List.mem_cons_of_mem d hd'))

theorem scanDecls_fst_of_ne {rootPath pkgPath : String} (funcName : String)
    (hne : pkgPath ≠ rootPath) :
    ∀ (ds : List Decl) (acc : Option Nat × List (Nat × String)),
      (scanDecls rootPath funcName pkgPath ds acc).1 = acc.1 := by
  intro ds
  induction ds with
  | nil => intro acc; rfl
  | cons d rest ih =>
    intro acc
    rw [scanDecls, List.foldl_cons]
    cases hsig : d.sig with
    | none => exact ih acc
    | some s =>
      refine (ih _).trans ?_
      exact if_neg (fun hh : pkgPath = rootPath ∧ d.name = funcName => hne hh.1)

theorem filesFold_fst_none (rootPath funcName pkgPath : String) :
    ∀ (files : List (List Decl)) (acc : Option Nat × List (Nat × String)), acc.1 = none →
      (∀ file ∈ files, ∀ d ∈ file, ¬(d.name = funcName ∧ d.sig.isSome = true)) →
      (files.foldl (fun a file => scanDecls rootPath funcName pkgPath file a) acc).1
        = none := by
  intro files
  induction files with
  | nil => intro acc h _; exact h
  | cons file rest ih =>
    intro acc hnone hno
    rw [List.foldl_cons]
    exact ih _ (scanDecls_fst_none rootPath funcName pkgPath file acc hnone
        (hno file (List.mem_cons_self file rest)))
      (fun f' hf' => hno f' (List.mem_cons_of_mem file hf'))

theorem filesFold_fst_of_ne {rootPath pkgPath : String} (funcName : String)
    (hne : pkgPath ≠ rootPath) :
    ∀ (files : List (List Decl)) (acc : Option Nat × List (Nat × String)),
      (files.foldl (fun a file => scanDecls rootPath funcName pkgPath file a) acc).1
        = acc.1 := by
  intro files
  induction files with
  | nil => intro acc; rfl
  | cons file rest ih =>
    intro acc
    rw [List.foldl_cons, ih _, scanDecls_fst_of_ne funcName hne]

theorem scanPackages_error (goModPaths : List String) (funcName : String)
    (hne : goModPaths ≠ []) :
    ∀ (pkgs : List LoadedPkg) (acc : Option Nat × List (Nat × String)), acc.1 = none →
      (∃ pkg ∈ pkgs, pkg.pkgPath = goModPaths.headD "") →
      (∀ pkg ∈ pkgs, pkg.pkgPath = goModPaths.headD "" →
        ∀ file ∈ pkg.files, ∀ d ∈ file, ¬(d.name = funcName ∧ d.sig.isSome = true)) →
      scanPackages goModPaths funcName pkgs acc
        = .error (.entryPointNotFound funcName) := by
  intro pkgs
  induction pkgs with
  | nil =>
    intro acc _ hex _
    obtain ⟨pkg, hmem, _⟩ := hex
    exact absurd hmem (List.not_mem_nil pkg)
  | cons pkg rest ih =>
    intro acc hacc hex hno
    obtain ⟨fs0, idx0⟩ := acc
    rw [scanPackages]
    by_cases hroot0 : pkg.pkgPath = goModPaths.headD ""
    · rw [if_pos (by rw [hroot0]; exact isGoModPkg_head hne)]
      have hnone : (pkg.files.foldl
          (fun a file => scanDecls (goModPaths.headD "") funcName pkg.pkgPath file a)
          (fs0, idx0)).1 = none :=
        filesFold_fst_none _ funcName _ pkg.files (fs0, idx0) hacc
          (hno pkg (List.mem_cons_self pkg rest) hroot0)
      rw [if_pos ⟨hroot0, hnone⟩]
    · have hex' : ∃ p ∈ rest, p.pkgPath = goModPaths.headD "" := by
        obtain ⟨p, hmem, hp⟩ := hex
        rcases List.mem_cons.mp hmem with hh | hh
        · exact absurd (hh ▸ hp) hroot0
        · exact ⟨p, hh, hp⟩
      have hno' : ∀ p ∈ rest, p.pkgPath = goModPaths.headD "" →
          ∀ file ∈ p.files, ∀ d ∈ file, ¬(d.name = funcName ∧ d.sig.isSome = true) :=
        fun p hp => hno p (List.mem_cons_of_mem pkg hp)
      by_cases hgm : isGoModPkg goModPaths pkg.pkgPath = true
      · rw [if_pos hgm]
        have hfst : (pkg.files.foldl
            (fun a file => scanDecls (goModPaths.headD "") funcName pkg.pkgPath file a)
            (fs0, idx0)).1 = none := by
          rw [filesFold_fst_of_ne funcName hroot0 pkg.files (fs0, idx0)]
          exact hacc
        rw [if_neg (fun hh : pkg.pkgPath = goModPaths.headD "" ∧ _ => hroot0 hh.1)]
        exact ih _ hfst hex' hno'
      · rw [if_neg hgm]
        exact ih _ hacc hex' hno'

/-- C7: when the primary (root) package is among the loaded packages and no
declaration in any package with the root path has the requested name (with a
resolvable signature), the whole run fails with `EntryPointNotFound` and no
output document is produced. -/
theorem C7_entry_point_not_found (goModPaths : List String) (pkgs : List LoadedPkg)
    (Γ : Env) (funcName : String) (er co : Bool)
    (hne : goModPaths ≠ [])
    (hroot : ∃ pkg ∈ pkgs, pkg.pkgPath = goModPaths.headD "")
    (hnomatch : ∀ pkg ∈ pkgs, pkg.pkgPath = goModPaths.headD "" →
      ∀ file ∈ pkg.files, ∀ d ∈ file, ¬(d.name = funcName ∧ d.sig.isSome = true)) :
    ParseE goModPaths pkgs Γ funcName er co = .error (.entryPointNotFound funcName) := by
  have hmain : initializeScan goModPaths pkgs funcName
      = .error (.entryPointNotFound funcName) :=
    scanPackages_error goModPaths funcName hne pkgs (none, []) rfl hroot hnomatch
  unfold ParseE
  rw [hmain]

theorem C7_entry_point_not_found_witness :
    ParseE ["m"] pkgsNoMain envEmpty "Main" false false
      = .error (.entryPointNotFound "Main") :=
  C7_entry_point_not_found ["m"] pkgsNoMain envEmpty "Main" false false
    (by decide) (by decide) (by decide)

theorem toList_getLast? (o : Option Nat) : o.toList.getLast? = o := by
  cases o <;> rfl

theorem cons_getLast?_or (a : Nat) (l : List Nat) (y : Option Nat) :
    ((a :: l).getLast?).or y = (a :: l).getLast? := by
  induction l generalizing a with
  | nil => rfl
  | cons b t ih => rw [List.getLast?_cons_cons]; exact ih b

theorem getLast?_chain (y : Option Nat) (l1 l2 : List Nat) :
    ((y.toList ++ l1).getLast?.toList ++ l2).getLast?
      = (y.toList ++ (l1 ++ l2)).getLast? := by
  rw [List.getLast?_append, toList_getLast?, List.getLast?_append, List.getLast?_append,
    List.getLast?_append, Option.or_assoc]

theorem scanDecls_fst_matches_root (rootPath funcName : String) :
    ∀ (ds : List Decl) (acc : Option Nat × List (Nat × String)),
      (scanDecls rootPath funcName rootPath ds acc).1
        = (acc.1.toList
            ++ ds.filterMap (fun d => if d.name = funcName then d.sig else none)).getLast? := by
  intro ds
  induction ds with
  | nil =>
    intro acc
    rw [List.filterMap_nil, List.append_nil, toList_getLast?]
    rfl
  | cons d rest ih =>
    intro acc
    rw [scanDecls, List.foldl_cons, List.filterMap_cons]
    cases hsig : d.sig with
    | none =>
      rw [ite_self]
      exact ih acc
    | some s =>
      by_cases hn : d.name = funcName
      · rw [if_pos hn]
        refine (ih _).trans ?_
        show ((if rootPath = rootPath ∧ d.name = funcName then some s else acc.1).toList
            ++ rest.filterMap (fun d => if d.name = funcName then d.sig else none)).getLast?
          = _
        rw [if_pos ⟨rfl, hn⟩]
        show ([s] ++ rest.filterMap (fun d => if d.name = funcName then d.sig else none)).getLast?
          = _
        rw [List.singleton_append, List.getLast?_append, cons_getLast?_or]
      · rw [if_neg hn]
        refine (ih _).trans ?_
        show ((if rootPath = rootPath ∧ d.name = funcName then some s else acc.1).toList
            ++ rest.filterMap (fun d => if d.name = funcName then d.sig else none)).getLast?
          = _
        rw [if_neg (fun hh : rootPath = rootPath ∧ d.name = funcName => hn hh.2)]

theorem scanDecls_fst_matches (rootPath funcName pkgPath : String)
    (ds : List Decl) (acc : Option Nat × List (Nat × String)) :
    (scanDecls rootPath funcName pkgPath ds acc).1
      = (acc.1.toList ++
          (if pkgPath = rootPath then
            ds.filterMap (fun d => if d.name = funcName then d.sig else none)
           else [])).getLast? := by
  by_cases hroot : pkgPath = rootPath
  · subst hroot
    rw [if_pos rfl]
    exact scanDecls_fst_matches_root pkgPath funcName ds acc
  · rw [if_neg hroot, List.append_nil, toList_getLast?]
    exact scanDecls_fst_of_ne funcName hroot ds acc

theorem filesFold_fst_matches (rootPath funcName pkgPath : String) :
    ∀ (files : List (List Decl)) (acc : Option Nat × List (Nat × String)),
      (files.foldl (fun a file => scanDecls rootPath funcName pkgPath file a) acc).1
        = (acc.1.toList ++
            (if pkgPath = rootPath then
              files.flatMap (fun file =>
                file.filterMap (fun d => if d.name = funcName then d.sig else none))
             else [])).getLast? := by
  intro files
  induction files with
  | nil =>
    intro acc
    rw [show (if pkgPath = rootPath then
        ([] : List (List Decl)).flatMap (fun file =>
          file.filterMap (fun d => if d.name = funcName then d.sig else none))
       else []) = [] from by
      by_cases hroot : pkgPath = rootPath
      · rw [if_pos hroot]; rfl
      · rw [if_neg hroot]]
    rw [List.append_nil, toList_getLast?]
    rfl
  | cons file rest ih =>
    intro acc
    rw [List.foldl_cons, ih _, scanDecls_fst_matches rootPath funcName pkgPath file acc]
    by_cases hroot : pkgPath = rootPath
    · rw [if_pos hroot, if_pos hroot, if_pos hroot, List.flatMap_cons]
      exact getLast?_chain acc.1 _ _
    · rw [if_neg hroot, if_neg hroot, if_neg hroot, List.append_nil, List.append_nil,
        toList_getLast?, toList_getLast?]

theorem scanPackages_fst (goModPaths : List String) (funcName : String) :
    ∀ (pkgs : List LoadedPkg) (acc : Option Nat × List (Nat × String))
      (fs : Option Nat) (idx : List (Nat × String)),
      scanPackages goModPaths funcName pkgs acc = .ok (fs, idx) →
      fs = (acc.1.toList ++ entryMatches goModPaths pkgs funcName).getLast? := by
  intro pkgs
  induction pkgs with
  | nil =>
    intro acc fs idx h
    rw [show entryMatches goModPaths [] funcName = [] from rfl, List.append_nil,
      toList_getLast?]
    have hacc : acc = (fs, idx) := by
      rw [scanPackages] at h
      exact Except.ok.inj h
    rw [hacc]
  | cons pkg rest ih =>
    intro acc fs idx h
    rw [scanPackages] at h
    have hem : entryMatches goModPaths (pkg :: rest) funcName
        = (if isGoModPkg goModPaths pkg.pkgPath && (pkg.pkgPath == goModPaths.headD "")
           then pkg.files.flatMap (fun file =>
             file.filterMap (fun d => if d.name = funcName then d.sig else none))
           else []) ++ entryMatches goModPaths rest funcName := List.flatMap_cons _ _ _
    by_cases hgm : isGoModPkg goModPaths pkg.pkgPath = true
    · rw [if_pos hgm] at h
      by_cases herr : pkg.pkgPath = goModPaths.headD "" ∧
          (pkg.files.foldl
            (fun a file => scanDecls (goModPaths.headD "") funcName pkg.pkgPath file a)
            acc).1 = none
      · rw [if_pos herr] at h
        exact absurd h (fun hh => Except.noConfusion hh)
      · rw [if_neg herr] at h
        have hrec := ih _ fs idx h
        rw [filesFold_fst_matches (goModPaths.headD "") funcName pkg.pkgPath pkg.files acc,
          getLast?_chain] at hrec
        rw [hem, hrec]
        by_cases hroot : pkg.pkgPath = goModPaths.headD ""
        · rw [if_pos hroot,
            show (isGoModPkg goModPaths pkg.pkgPath
              && (pkg.pkgPath == goModPaths.headD "")) = true from by
            rw [hgm, Bool.true_and]
            exact beq_iff_eq.mpr hroot,
            if_pos rfl]
        · rw [if_neg hroot,
            show (isGoModPkg goModPaths pkg.pkgPath
              && (pkg.pkgPath == goModPaths.headD "")) = false from by
            rw [hgm, Bool.true_and]
            exact beq_eq_false_iff_ne.mpr hroot,
            if_neg (fun hh : false = true => Bool.noConfusion hh), List.nil_append]
    · rw [if_neg hgm] at h
      rw [hem,
        show (isGoModPkg goModPaths pkg.pkgPath
          && (pkg.pkgPath == goModPaths.headD "")) = false from by
        rw [Bool.eq_false_iff.mpr hgm, Bool.false_and],
        if_neg (fun hh : false = true => Bool.noConfusion hh), List.nil_append]
      exact ih _ fs idx h

/-- C10: entry-point selection matches any declaration in the root package
whose declared name equals the requested name — the match places no
condition on `Decl.recv`, so methods on types are matched exactly like plain
functions — and when several such declarations exist, the one scanned last
determines the entry signature: the returned signature is the last element
of the scan-ordered match list `entryMatches`. -/
theorem C10_entry_selection (goModPaths : List String) (pkgs : List LoadedPkg)
    (funcName : String) (fs : Option Nat) (idx : List (Nat × String))
    (h : initializeScan goModPaths pkgs funcName = .ok (fs, idx)) :
    fs = (entryMatches goModPaths pkgs funcName).getLast? := by
  have hmain := scanPackages_fst goModPaths funcName pkgs (none, []) fs idx h
  rw [show ((none : Option Nat), ([] : List (Nat × String))).1.toList = [] from rfl,
    List.nil_append] at hmain
  exact hmain

theorem C10_entry_selection_witness :
    (some 2 : Option Nat) = (entryMatches ["m"] pkgsTwoF "F").getLast? :=
  C10_entry_selection ["m"] pkgsTwoF "F" (some 2) [(2, "m"), (1, "m")] rfl

theorem scanDecls_idx (rootPath funcName pkgPath : String) :
    ∀ (ds : List Decl) (acc : Option Nat × List (Nat × String)) (s : Nat) (pp : String),
      (s, pp) ∈ (scanDecls rootPath funcName pkgPath ds acc).2 →
      (s, pp) ∈ acc.2 ∨ pp = pkgPath := by
  intro ds
  induction ds with
  | nil => intro acc s pp h; exact Or.inl h
  | cons d rest ih =>
    intro acc s pp h
    rw [scanDecls, List.foldl_cons] at h
    cases hsig : d.sig with
    | none =>
      rw [hsig] at h
      exact ih acc s pp h
    | some s' =>
      rw [hsig] at h
      rcases ih _ s pp h with hmem | hpp
      · rcases List.mem_cons.mp hmem with heq | hmem'
        · exact Or.inr (congrArg Prod.snd heq)
        · exact Or.inl hmem'
      · exact Or.inr hpp

theorem filesFold_idx (rootPath funcName pkgPath : String) :
    ∀ (files : List (List Decl)) (acc : Option Nat × List (Nat × String))
      (s : Nat) (pp : String),
      (s, pp) ∈ (files.foldl
        (fun a file => scanDecls rootPath funcName pkgPath file a) acc).2 →
      (s, pp) ∈ acc.2 ∨ pp = pkgPath := by
  intro files
  induction files with
  | nil => intro acc s pp h; exact Or.inl h
  | cons file rest ih =>
    intro acc s pp h
    rw [List.foldl_cons] at h
    rcases ih _ s pp h with hmem | hpp
    · exact scanDecls_idx rootPath funcName pkgPath file acc s pp hmem
    · exact Or.inr hpp

theorem scanPackages_idx (goModPaths : List String) (funcName : String) :
    ∀ (pkgs : List LoadedPkg) (acc : Option Nat × List (Nat × String))
      (fs : Option Nat) (idx : List (Nat × String)),
      scanPackages goModPaths funcName pkgs acc = .ok (fs, idx) →
      ∀ (s : Nat) (pp : String), (s, pp) ∈ idx →
        (s, pp) ∈ acc.2 ∨ isGoModPkg goModPaths pp = true := by
  intro pkgs
  induction pkgs with
  | nil =>
    intro acc fs idx h s pp hm
    rw [scanPackages] at h
    refine Or.inl ?_
    rw [Except.ok.inj h]
    exact hm
  | cons pkg rest ih =>
    intro acc fs idx h s pp hm
    rw [scanPackages] at h
    by_cases hgm : isGoModPkg goModPaths pkg.pkgPath = true
    · rw [if_pos hgm] at h
      by_cases herr : pkg.pkgPath = goModPaths.headD "" ∧
          (pkg.files.foldl
            (fun a file => scanDecls (goModPaths.headD "") funcName pkg.pkgPath file a)
            acc).1 = none
      · rw [if_pos herr] at h
        exact absurd h (fun hh => Except.noConfusion hh)
      · rw [if_neg herr] at h
        rcases ih _ fs idx h s pp hm with hmem | hacc
        · rcases filesFold_idx (goModPaths.headD "") funcName pkg.pkgPath pkg.files acc
              s pp hmem with hmem' | hpp
          · exact Or.inl hmem'
          · exact Or.inr (hpp ▸ hgm)
        · exact Or.inr hacc
    · rw [if_neg hgm] at h
      exact ih _ fs idx h s pp hm

theorem C4_counterexample :
    initializeScan ((parseGoModFile goModDep).getD []) pkgsDep "Main"
        = .ok (some 0, [(1, "d"), (0, "m")]) ∧
      ¬(("d" : String) = "m" ∨ ("m" ++ "/").data <+: ("d" : String).data) :=
  ⟨rfl, by decide⟩

/-- C4 (amended): the index built by the scan contains a loaded package's
function declarations only if the package's import path is accepted by
`isGoModPkg`, and `isGoModPkg` accepts exactly the paths that equal, or
extend with a `/` separator, one of the paths listed in go.mod — which are
the module path *and* the paths of required third-party dependencies (see
`parseGoModFile`), not only the module itself.  Standard-library packages
are not listed, hence never indexed. -/
theorem C4_gomod_filter_amended :
    (∀ (goModPaths : List String) (pkgs : List LoadedPkg) (funcName : String)
        (fs : Option Nat) (idx : List (Nat × String)) (s : Nat) (pp : String),
        initializeScan goModPaths pkgs funcName = .ok (fs, idx) → (s, pp) ∈ idx →
          isGoModPkg goModPaths pp = true) ∧
    (∀ (paths : List String) (p : String),
        isGoModPkg paths p = true ↔ ∃ q ∈ paths, p = q ∨ (q ++ "/").data <+: p.data) := by
  constructor
  · intro goModPaths pkgs funcName fs idx s pp h hm
    rcases scanPackages_idx goModPaths funcName pkgs (none, []) fs idx h s pp hm with
      hmem | hacc
    · exact absurd hmem (List.not_mem_nil _)
    · exact hacc
  · intro paths p
    unfold isGoModPkg
    rw [List.any_eq_true]
    constructor
    · rintro ⟨q, hq, hor⟩
      rcases Bool.or_eq_true_iff.mp hor with hh | hh
      · exact ⟨q, hq, Or.inl (beq_iff_eq.mp hh)⟩
      · exact ⟨q, hq, Or.inr (List.isPrefixOf_iff_prefix.mp hh)⟩
    · rintro ⟨q, hq, hor⟩
      refine ⟨q, hq, Bool.or_eq_true_iff.mpr ?_⟩
      rcases hor with hh | hh
      · exact Or.inl (beq_iff_eq.mpr hh)
      · exact Or.inr (List.isPrefixOf_iff_prefix.mpr hh)

theorem C4_gomod_filter_amended_witness :
    isGoModPkg ["m", "d"] "d" = true :=
  C4_gomod_filter_amended.1 ["m", "d"] pkgsDep "Main" (some 0) [(1, "d"), (0, "m")] 1 "d"
    rfl (by decide)

theorem tiles_le : ∀ (l : List (Nat × Nat)) (a b : Nat), tiles a l b = true → a ≤ b + 1 := by
  intro l
  induction l with
  | nil =>
    intro a b h
    rw [tiles] at h
    exact Nat.le_of_eq (beq_iff_eq.mp h)
  | cons c rest ih =>
    intro a b h
    rw [tiles] at h
    rcases Bool.and_eq_true_iff.mp h with ⟨h1, h3⟩
    rcases Bool.and_eq_true_iff.mp h1 with ⟨hs, he⟩
    have hae : a ≤ c.2 := of_decide_eq_true he
    have := ih (c.2 + 1) b h3
    omega

theorem emitLines_glue (lines : List String) (x b1 b2 : Nat)
    (h1 : x ≤ b1 + 1) (h2 : b1 ≤ b2) :
    emitLines lines x b1 ++ emitLines lines (b1 + 1) b2 = emitLines lines x b2 := by
  unfold emitLines
  rw [← join_append, ← List.map_append]
  have h3 : b2 + 1 - (b1 + 1) = b2 - b1 := by omega
  have hr := List.range'_append x (b1 + 1 - x) (b2 - b1) 1
  rw [show x + 1 * (b1 + 1 - x) = b1 + 1 from by omega,
    show b2 - b1 + (b1 + 1 - x) = b2 + 1 - x from by omega] at hr
  rw [h3, hr]

theorem docPart_glue (lines : List String) (endB : Nat) :
    ∀ (comments : List (Nat × Nat)) (a stopB : Nat), 1 ≤ a →
      tiles a comments stopB = true → stopB ≤ endB →
      String.join (comments.map (fun c => emitLines lines (c.1 - 1) (c.2 - 1)))
          ++ emitLines lines stopB endB
        = emitLines lines (a - 1) endB := by
  intro comments
  induction comments with
  | nil =>
    intro a stopB ha ht hle
    rw [tiles] at ht
    have haeq : a = stopB + 1 := beq_iff_eq.mp ht
    rw [List.map_nil,
      show String.join [] = "" from rfl, String.empty_append,
      show a - 1 = stopB from by omega]
  | cons c rest ih =>
    intro a stopB ha ht hle
    rw [tiles] at ht
    rcases Bool.and_eq_true_iff.mp ht with ⟨h1, h3⟩
    rcases Bool.and_eq_true_iff.mp h1 with ⟨hs, he⟩
    have hsa : c.1 = a := beq_iff_eq.mp hs
    have hae : a ≤ c.2 := of_decide_eq_true he
    have hrest := ih (c.2 + 1) stopB (by omega) h3 hle
    have hle2 : c.2 ≤ stopB := by
      have := tiles_le rest (c.2 + 1) stopB h3
      omega
    rw [show c.2 + 1 - 1 = c.2 from by omega] at hrest
    rw [List.map_cons, join_cons, String.append_assoc, hrest, hsa]
    rw [show emitLines lines c.2 endB = emitLines lines (c.2 - 1 + 1) endB from by
      rw [show c.2 - 1 + 1 = c.2 from by omega]]
    exact emitLines_glue lines (a - 1) (c.2 - 1) endB (by omega) (by omega)

theorem C8_counterexample :
    extractSourceCode "l0\nl1\nl2\nl3\nl4" ⟨some [(1, 1), (3, 3)], 4, 5⟩
      ≠ sliceSpec "l0\nl1\nl2\nl3\nl4" 1 5 := by decide

/-- C8 (amended): the Slicer emits each doc comment's full line range in
order, followed by the declaration's line range from its start line through
its body's end line, every line with its line break.  When the comment
ranges tile a contiguous block ending on the line just above the
declaration, this equals exactly the source text from the start of the
documentation block through the end of the body inclusive; when the comment
groups are non-contiguous, the lines in the gaps are omitted, so the result
is *not* the contiguous source block the original claim describes. -/
theorem C8_slicer_amended (fileContent : String) (fn : FnDecl)
    (comments : List (Nat × Nat)) (a : Nat)
    (hdoc : fn.doc = some comments)
    (ha : 1 ≤ a)
    (htiles : tiles a comments (fn.startLine - 1) = true)
    (hstart : 1 ≤ fn.startLine)
    (hse : fn.startLine ≤ fn.endLine) :
    extractSourceCode fileContent fn = sliceSpec fileContent a fn.endLine := by
  unfold extractSourceCode sliceSpec
  rw [hdoc]
  show String.join (comments.map
        (fun c => emitLines (splitLines fileContent) (c.1 - 1) (c.2 - 1)))
      ++ emitLines (splitLines fileContent) (fn.startLine - 1) (fn.endLine - 1)
    = emitLines (splitLines fileContent) (a - 1) (fn.endLine - 1)
  exact docPart_glue (splitLines fileContent) (fn.endLine - 1) comments a
    (fn.startLine - 1) ha htiles (by omega)

theorem C8_slicer_amended_witness :
    extractSourceCode "// a\n// b\nfn\nend" ⟨some [(1, 1), (2, 2)], 3, 4⟩
      = sliceSpec "// a\n// b\nfn\nend" 1 4 :=
  C8_slicer_amended "// a\n// b\nfn\nend" ⟨some [(1, 1), (2, 2)], 3, 4⟩
    [(1, 1), (2, 2)] 1 rfl (by decide) (by decide) (by decide) (by decide)

end scparser
